import Mathlib

/-!
Verification of the in-memory text search and relevance-ranking engine of the
fashion-catalogue repository (src/script.js): tokenizer/normalizer, index
builder, fuzzy matcher (Levenshtein based), relevance scorer, search
orchestrator and suggestion generator.  Strings are modelled as lists of
characters, JavaScript numbers as rationals, and the stable Array.prototype.sort
as a stable merge sort.
-/

namespace FashionSearch

/-- Strings of the JavaScript source, modelled as lists of characters. -/
abbrev Str := List Char

/-- Characters matched by the JavaScript regex class backslash-s (ASCII part). -/
def jsSpace (c : Char) : Bool :=
  c = ' ' || c = '\t' || c = '\n' || c = '\r' || c = '\x0b' || c = '\x0c'

/-- Characters matched by the JavaScript regex class backslash-w. -/
def isWordChar (c : Char) : Bool := c.isAlphanum || c = '_'

/-- First replace of normalizeText: punctuation (neither word char nor space) becomes a space. -/
def punctToSpace (c : Char) : Char := if isWordChar c || jsSpace c then c else ' '

/-- Second replace of normalizeText: hyphens and underscores become spaces. -/
def dashToSpace (c : Char) : Char := if c = '-' || c = '_' then ' ' else c

/-- Third replace of normalizeText: each maximal run of whitespace becomes a single space.
The flag records whether the previous character belonged to a whitespace run. -/
def collapseWS : Bool → Str → Str
  | _, [] => []
  | prevSpace, c :: cs =>
    if jsSpace c then
      if prevSpace then collapseWS true cs else ' ' :: collapseWS true cs
    else c :: collapseWS false cs

/-- JavaScript String.prototype.trim: drop whitespace from both ends. -/
def jsTrim (l : Str) : Str :=
  ((l.dropWhile jsSpace).reverse.dropWhile jsSpace).reverse

/-- normalizeText of src/script.js: lowercase, punctuation and hyphens/underscores
to spaces, collapse whitespace runs, trim.  A missing (null) or empty string
yields the empty string. -/
def normalizeText (text : Option Str) : Str :=
  match text with
  | none => []
  | some t =>
    if t = [] then []
    else jsTrim (collapseWS false (((t.map Char.toLower).map punctToSpace).map dashToSpace))

/-- JavaScript String.prototype.split with a single-character separator:
segments between separator occurrences, empty segments kept. -/
def splitOnChar (sep : Char) : Str → List Str
  | [] => [[]]
  | c :: cs =>
    match splitOnChar sep cs with
    | [] => [[]]
    | s :: rest => if c = sep then [] :: s :: rest else (c :: s) :: rest

/-- The fixed stop-word set of the catalogue (constructor of src/script.js). -/
def stopWords : List Str :=
  ["the", "a", "an", "and", "or", "but", "in", "on", "at", "to", "for", "of",
   "with", "by", "is", "are", "was", "were", "be", "been", "have", "has", "had",
   "do", "does", "did", "will", "would", "could", "should"].map String.toList

/-- tokenize of src/script.js: split the normalized text on spaces, drop
single-character tokens, drop stop words. -/
def tokenize (text : Option Str) : List Str :=
  match text with
  | none => []
  | some t =>
    if t = [] then []
    else ((splitOnChar ' ' (normalizeText (some t))).filter
            (fun tok => decide (1 < tok.length))).filter
          (fun tok => !stopWords.contains tok)

/-- The original_data record of a product: optional title and description. -/
structure OriginalData where
  title : Option Str
  description : Option Str
deriving DecidableEq

/-- A catalogue product, as far as the search engine reads it. -/
structure Product where
  original_data : Option OriginalData
  confidence_score : Option ℚ
deriving DecidableEq

instance : Inhabited Product := ⟨⟨none, none⟩⟩

/-- One entry of the search index (buildSearchIndex of src/script.js). -/
structure IndexEntry where
  productIndex : ℕ
  titleTokens : List Str
  descriptionTokens : List Str
  normalizedTitle : Str
  normalizedDescription : Str
  allTokens : List Str
deriving DecidableEq

/-- buildSearchIndex of src/script.js: one index entry per product, positionally. -/
def buildSearchIndex (products : List Product) : List IndexEntry :=
  products.enum.map (fun pi =>
    { productIndex := pi.1
      titleTokens := tokenize (pi.2.original_data.bind OriginalData.title)
      descriptionTokens := tokenize (pi.2.original_data.bind OriginalData.description)
      normalizedTitle := normalizeText (pi.2.original_data.bind OriginalData.title)
      normalizedDescription := normalizeText (pi.2.original_data.bind OriginalData.description)
      allTokens := tokenize (some ((pi.2.original_data.bind OriginalData.title).getD []))
        ++ tokenize (some ((pi.2.original_data.bind OriginalData.description).getD [])) })

/-- Cell (i, j) of the levenshteinDistance matrix of src/script.js: rows are
indexed by prefixes of str2, columns by prefixes of str1. -/
def levCell (str1 str2 : Str) : ℕ → ℕ → ℕ
  | 0, j => j
  | i + 1, 0 => i + 1
  | i + 1, j + 1 =>
    if str2.get? i = str1.get? j then
      levCell str1 str2 i j
    else
      Nat.min (levCell str1 str2 i j + 1)
        (Nat.min (levCell str1 str2 (i + 1) j + 1) (levCell str1 str2 i (j + 1) + 1))
termination_by i j => (i, j)

/-- levenshteinDistance of src/script.js: the bottom-right matrix cell. -/
def levenshteinDistance (str1 str2 : Str) : ℕ :=
  levCell str1 str2 str2.length str1.length

/-- Auxiliary for JavaScript String.prototype.includes: the first string is a
leading segment of the second. -/
def leadsWith : Str → Str → Bool
  | [], _ => true
  | _ :: _, [] => false
  | a :: as, b :: bs => a = b && leadsWith as bs

/-- JavaScript hay.includes(needle): needle occurs contiguously inside hay. -/
def jsIncludes : Str → Str → Bool
  | [], needle => leadsWith needle []
  | hay@(_ :: t), needle => leadsWith needle hay || jsIncludes t needle

/-- fuzzyMatch of src/script.js: equal strings match; strings shorter than 3
never match otherwise; containment matches; else normalized Levenshtein
similarity must reach the threshold. -/
def fuzzyMatch (term1 term2 : Str) (threshold : ℚ) : Bool :=
  if term1 = term2 then true
  else if term1.length < 3 ∨ term2.length < 3 then false
  else if jsIncludes term1 term2 || jsIncludes term2 term1 then true
  else
    let distance := levenshteinDistance term1 term2
    let maxLength := Nat.max term1.length term2.length
    let similarity : ℚ := 1 - (distance : ℚ) / (maxLength : ℚ)
    decide (threshold ≤ similarity)

/-- Exact-title bonus of calculateRelevanceScore: +3 when the query token is a
member of the title tokens. -/
def exactTitleScore (e : IndexEntry) (s : Str) : ℚ :=
  if s ∈ e.titleTokens then 3 else 0

/-- Fuzzy-title bonus of calculateRelevanceScore: +2 for each title token that
fuzzy-matches the query token at threshold 0.8. -/
def fuzzyTitleScore (e : IndexEntry) (s : Str) : ℚ :=
  (e.titleTokens.map (fun t => if fuzzyMatch s t (0.8 : ℚ) then (2 : ℚ) else 0)).sum

/-- Exact-description bonus of calculateRelevanceScore: +1 on membership. -/
def exactDescScore (e : IndexEntry) (s : Str) : ℚ :=
  if s ∈ e.descriptionTokens then 1 else 0

/-- Fuzzy-description bonus of calculateRelevanceScore: +0.5 per fuzzy match. -/
def fuzzyDescScore (e : IndexEntry) (s : Str) : ℚ :=
  (e.descriptionTokens.map (fun t => if fuzzyMatch s t (0.8 : ℚ) then (0.5 : ℚ) else 0)).sum

/-- Phrase bonus of calculateRelevanceScore: +1 when the normalized title
contains the query token as a substring. -/
def titlePhraseScore (e : IndexEntry) (s : Str) : ℚ :=
  if jsIncludes e.normalizedTitle s then 1 else 0

/-- Phrase bonus of calculateRelevanceScore: +0.5 for the normalized description. -/
def descPhraseScore (e : IndexEntry) (s : Str) : ℚ :=
  if jsIncludes e.normalizedDescription s then 0.5 else 0

/-- Per-term score of calculateRelevanceScore: all six bonuses stack. -/
def termScore (e : IndexEntry) (s : Str) : ℚ :=
  exactTitleScore e s + fuzzyTitleScore e s + exactDescScore e s
    + fuzzyDescScore e s + titlePhraseScore e s + descPhraseScore e s

/-- Whether any of the six scoring branches fired for this query token. -/
def termMatched (e : IndexEntry) (s : Str) : Bool :=
  decide (s ∈ e.titleTokens)
  || e.titleTokens.any (fun t => fuzzyMatch s t (0.8 : ℚ))
  || decide (s ∈ e.descriptionTokens)
  || e.descriptionTokens.any (fun t => fuzzyMatch s t (0.8 : ℚ))
  || jsIncludes e.normalizedTitle s
  || jsIncludes e.normalizedDescription s

/-- Return value of calculateRelevanceScore. -/
structure ScoreResult where
  score : ℚ
  matchedTerms : ℕ
  totalTerms : ℕ
  coverage : ℚ
deriving DecidableEq

/-- calculateRelevanceScore of src/script.js: sum the per-term scores of the
matched terms and add the coverage bonus (matched fraction times 2). -/
def calculateRelevanceScore (searchTokens : List Str) (e : IndexEntry) : ScoreResult :=
  let matched := searchTokens.countP (fun s => termMatched e s)
  let base := (searchTokens.map (fun s => if termMatched e s then termScore e s else 0)).sum
  let coverage : ℚ := (matched : ℚ) / (searchTokens.length : ℚ)
  { score := base + coverage * 2
    matchedTerms := matched
    totalTerms := searchTokens.length
    coverage := coverage }

/-- One element of the list returned by performAdvancedSearch.  The empty-query
pass-through omits matchedTerms and coverage, hence the options. -/
structure SearchResult where
  product : Product
  score : ℚ
  matchedTerms : Option ℕ
  coverage : Option ℚ
deriving DecidableEq

/-- The confidence tie-break key: (product.confidence_score or 0). -/
def confOf (p : Product) : ℚ := p.confidence_score.getD 0

/-- Coverage as read by the sort comparator. -/
def covOf (r : SearchResult) : ℚ := r.coverage.getD 0

/-- The sort comparator of performAdvancedSearch as a boolean "may come first"
relation: score descending, then coverage descending, then confidence
descending.  resultLE a b holds when the JavaScript comparator on (a, b) is
non-positive. -/
def resultLE (a b : SearchResult) : Bool :=
  if a.score = b.score then
    if covOf a = covOf b then decide (confOf b.product ≤ confOf a.product)
    else decide (covOf b < covOf a)
  else decide (b.score < a.score)

/-- The empty-query branch of performAdvancedSearch: every product, score 0. -/
def passThrough (products : List Product) : List SearchResult :=
  products.map (fun p =>
    { product := p, score := 0, matchedTerms := none, coverage := none })

/-- The result object pushed by performAdvancedSearch for a retained entry. -/
def fullResult (products : List Product) (searchTokens : List Str) (e : IndexEntry) :
    SearchResult :=
  let r := calculateRelevanceScore searchTokens e
  { product := products.getD e.productIndex default
    score := r.score
    matchedTerms := some r.matchedTerms
    coverage := some r.coverage }

/-- The results retained before sorting: entries with at least one matched term. -/
def retainedResults (products : List Product) (searchTokens : List Str) :
    List SearchResult :=
  (buildSearchIndex products).filterMap (fun e =>
    if 0 < (calculateRelevanceScore searchTokens e).matchedTerms then
      some (fullResult products searchTokens e)
    else none)

/-- performAdvancedSearch of src/script.js.  A null, empty, whitespace-only or
token-free query passes every product through with score 0; otherwise the
retained results are sorted by the stable comparator-based sort. -/
def performAdvancedSearch (products : List Product) (query : Option Str) :
    List SearchResult :=
  match query with
  | none => passThrough products
  | some q =>
    if (jsTrim q).length = 0 then passThrough products
    else
      let searchTokens := tokenize (some q)
      if searchTokens = [] then passThrough products
      else (retainedResults products searchTokens).mergeSort resultLE

/-- JavaScript Set.add on an insertion-ordered list of distinct strings. -/
def insertSet (l : List Str) (x : Str) : List Str :=
  if x ∈ l then l else l ++ [x]

/-- Inner loop body of generateSearchSuggestions for one candidate token:
add it for each query token it fuzzy-matches (threshold 0.7) without being
identical to, and for each query token it strictly-longer contains. -/
def addSuggestion (queryTokens : List Str) (acc : List Str) (tok : Str) : List Str :=
  queryTokens.foldl (fun acc2 qt =>
    let acc3 :=
      if tok ≠ qt ∧ fuzzyMatch qt tok (0.7 : ℚ) = true then insertSet acc2 tok else acc2
    if qt.length < tok.length ∧ jsIncludes tok qt = true then insertSet acc3 tok else acc3)
    acc

/-- generateSearchSuggestions of src/script.js: scan every token of every index
entry against every query token, collect suggestions in first-discovery order,
return at most five. -/
def generateSearchSuggestions (products : List Product) (query : Str) : List Str :=
  let queryTokens := tokenize (some query)
  (((buildSearchIndex products).foldl
      (fun acc e => e.allTokens.foldl (addSuggestion queryTokens) acc) []).take 5)

end FashionSearch

namespace FashionSearch

lemma levCell_succ_succ (s1 s2 : Str) (i j : ℕ) :
    levCell s1 s2 (i + 1) (j + 1) =
      if s2.get? i = s1.get? j then levCell s1 s2 i j
      else
        Nat.min (levCell s1 s2 i j + 1)
          (Nat.min (levCell s1 s2 (i + 1) j + 1) (levCell s1 s2 i (j + 1) + 1)) := by
  rw [levCell]

lemma levCell_symm (s1 s2 : Str) : ∀ i j, levCell s1 s2 i j = levCell s2 s1 j i := by
  intro i
  induction i with
  | zero =>
    intro j
    cases j <;> simp [levCell]
  | succ i ih =>
    intro j
    induction j with
    | zero => simp [levCell]
    | succ j ihj =>
      rw [levCell_succ_succ, levCell_succ_succ]
      have h1 := ih j
      have h2 := ih (j + 1)
      by_cases hc : s2.get? i = s1.get? j
      · rw [if_pos hc, if_pos hc.symm, h1]
      · rw [if_neg hc, if_neg (fun h => hc h.symm), h1, h2, ihj]
        exact congrArg (Nat.min _) (Nat.min_comm _ _)

lemma levenshteinDistance_symm (a b : Str) :
    levenshteinDistance a b = levenshteinDistance b a := by
  unfold levenshteinDistance
  exact levCell_symm a b b.length a.length

/-- Claim C6: fuzzyMatch is symmetric in its two string arguments, for every
threshold. -/
theorem fuzzyMatch_symm (a b : Str) (t : ℚ) : fuzzyMatch a b t = fuzzyMatch b a t := by
  unfold fuzzyMatch
  by_cases hab : a = b
  · subst hab; rfl
  · have hba : ¬b = a := fun h => hab h.symm
    rw [if_neg hab, if_neg hba]
    by_cases hl : a.length < 3 ∨ b.length < 3
    · have hl' : b.length < 3 ∨ a.length < 3 := Or.symm hl
      rw [if_pos hl, if_pos hl']
    · have hl' : ¬(b.length < 3 ∨ a.length < 3) := fun h => hl (Or.symm h)
      rw [if_neg hl, if_neg hl']
      simp only [Bool.or_comm (jsIncludes a b), levenshteinDistance_symm a b,
        Nat.max_comm (List.length a)]

end FashionSearch

namespace FashionSearch

lemma fuzzyMatch_self (s : Str) (t : ℚ) : fuzzyMatch s s t = true := by
  unfold fuzzyMatch
  rw [if_pos rfl]

lemma mapSum_nonneg {l : List Str} {p : Str → Bool} {c : ℚ} (hc : 0 ≤ c) :
    0 ≤ (l.map (fun t => if p t then c else 0)).sum := by
  apply List.sum_nonneg
  intro x hx
  obtain ⟨t, _, rfl⟩ := List.mem_map.mp hx
  by_cases h : p t = true
  · rw [if_pos h]; exact hc
  · rw [if_neg h]

lemma mapSum_single_le {l : List Str} {p : Str → Bool} {c : ℚ} (hc : 0 ≤ c)
    {t : Str} (ht : t ∈ l) (hp : p t = true) :
    c ≤ (l.map (fun t => if p t then c else 0)).sum := by
  have hmem : (if p t then c else 0) ∈ l.map (fun t => if p t then c else 0) :=
    List.mem_map_of_mem _ ht
  rw [if_pos hp] at hmem
  apply List.single_le_sum _ _ hmem
  intro x hx
  obtain ⟨u, _, rfl⟩ := List.mem_map.mp hx
  by_cases h : p u = true
  · rw [if_pos h]; exact hc
  · rw [if_neg h]

lemma mapSum_count {l : List Str} {p : Str → Bool} {c : ℚ} :
    (l.map (fun t => if p t then c else 0)).sum = c * l.countP p := by
  induction l with
  | nil => simp
  | cons x xs ih =>
    by_cases h : p x = true
    · simp only [List.map_cons, List.sum_cons, List.countP_cons, h, if_pos rfl, ih]
      push_cast
      ring
    · have hb : p x = false := by simpa using h
      simp [List.countP_cons, hb, ih]

lemma exactTitleScore_nonneg (e : IndexEntry) (s : Str) : 0 ≤ exactTitleScore e s := by
  unfold exactTitleScore
  split <;> norm_num

lemma fuzzyTitleScore_nonneg (e : IndexEntry) (s : Str) : 0 ≤ fuzzyTitleScore e s :=
  mapSum_nonneg (by norm_num)

lemma exactDescScore_nonneg (e : IndexEntry) (s : Str) : 0 ≤ exactDescScore e s := by
  unfold exactDescScore
  split <;> norm_num

lemma fuzzyDescScore_nonneg (e : IndexEntry) (s : Str) : 0 ≤ fuzzyDescScore e s :=
  mapSum_nonneg (by norm_num)

lemma titlePhraseScore_nonneg (e : IndexEntry) (s : Str) : 0 ≤ titlePhraseScore e s := by
  unfold titlePhraseScore
  split <;> norm_num

lemma descPhraseScore_nonneg (e : IndexEntry) (s : Str) : 0 ≤ descPhraseScore e s := by
  unfold descPhraseScore
  split <;> norm_num

lemma termScore_nonneg (e : IndexEntry) (s : Str) : 0 ≤ termScore e s := by
  unfold termScore
  have h1 := exactTitleScore_nonneg e s
  have h2 := fuzzyTitleScore_nonneg e s
  have h3 := exactDescScore_nonneg e s
  have h4 := fuzzyDescScore_nonneg e s
  have h5 := titlePhraseScore_nonneg e s
  have h6 := descPhraseScore_nonneg e s
  linarith

/-- Claim C2: a query token that is an exact member of the title tokens earns
the exact-title bonus of 3 and, through the fuzzy loop that does not exclude
the identical token (a string fuzzy-matches itself), at least 2 more, so its
per-term contribution is at least 5. -/
theorem exact_member_double_bonus (e : IndexEntry) (s : Str)
    (h : s ∈ e.titleTokens) :
    fuzzyMatch s s (0.8 : ℚ) = true ∧
    exactTitleScore e s = 3 ∧
    (2 : ℚ) ≤ fuzzyTitleScore e s ∧
    (5 : ℚ) ≤ termScore e s := by
  refine ⟨fuzzyMatch_self s _, ?_, ?_, ?_⟩
  · unfold exactTitleScore
    rw [if_pos h]
  · exact mapSum_single_le (by norm_num) h (fuzzyMatch_self s _)
  · have h2 : (2 : ℚ) ≤ fuzzyTitleScore e s :=
      mapSum_single_le (by norm_num) h (fuzzyMatch_self s _)
    have h1 : exactTitleScore e s = 3 := by unfold exactTitleScore; rw [if_pos h]
    have h3 := exactDescScore_nonneg e s
    have h4 := fuzzyDescScore_nonneg e s
    have h5 := titlePhraseScore_nonneg e s
    have h6 := descPhraseScore_nonneg e s
    unfold termScore
    linarith

/-- Witness for C2 at a concrete index entry: the token "hello" is a title
token, so both bonuses apply. -/
theorem exact_member_double_bonus_witness :
    ("hello".toList ∈
        (IndexEntry.mk 0 [("hello".toList)] [] ("hello".toList) [] [("hello".toList)]).titleTokens) ∧
      ((2 : ℚ) ≤ fuzzyTitleScore
        (IndexEntry.mk 0 [("hello".toList)] [] ("hello".toList) [] [("hello".toList)])
        ("hello".toList) ∧
       (5 : ℚ) ≤ termScore
        (IndexEntry.mk 0 [("hello".toList)] [] ("hello".toList) [] [("hello".toList)])
        ("hello".toList)) :=
  ⟨by decide,
   (exact_member_double_bonus _ _ (by decide)).2.2.1,
   (exact_member_double_bonus _ _ (by decide)).2.2.2⟩

end FashionSearch

namespace FashionSearch

lemma head?_dropWhile (p : Char → Bool) (l : Str) :
    ∀ c ∈ (l.dropWhile p).head?, p c = false := by
  induction l with
  | nil => intro c hc; simp at hc
  | cons x xs ih =>
    intro c hc
    rw [List.dropWhile_cons] at hc
    by_cases h : p x = true
    · rw [if_pos h] at hc
      exact ih c hc
    · rw [if_neg h] at hc
      simp only [List.head?_cons, Option.mem_def, Option.some.injEq] at hc
      subst hc
      simpa using h

lemma jsTrim_nil_imp_all_space {l : Str} (h : jsTrim l = []) :
    ∀ c ∈ l, jsSpace c = true := by
  unfold jsTrim at h
  rw [List.reverse_eq_nil_iff, List.dropWhile_eq_nil_iff] at h
  have h2 : ∀ c ∈ l.dropWhile jsSpace, jsSpace c = true := by
    intro c hc
    have : c ∈ (l.dropWhile jsSpace).reverse := List.mem_reverse.mpr hc
    exact h c this
  intro c hc
  have := List.takeWhile_append_dropWhile jsSpace l
  rw [← this] at hc
  rcases List.mem_append.mp hc with h3 | h3
  · exact List.mem_takeWhile_imp h3
  · exact h2 c h3

lemma space_char_fixed {c : Char} (h : jsSpace c = true) :
    Char.toLower c = c ∧ punctToSpace c = c ∧ dashToSpace c = c := by
  unfold jsSpace at h
  simp only [Bool.or_eq_true, decide_eq_true_eq, or_assoc] at h
  rcases h with h | h | h | h | h | h <;> subst h <;> exact ⟨by decide, by decide, by decide⟩

lemma collapseWS_all_space : ∀ (l : Str), (∀ c ∈ l, jsSpace c = true) →
    collapseWS true l = [] ∧ collapseWS false l = if l = [] then [] else [' '] := by
  intro l
  induction l with
  | nil => intro _; exact ⟨rfl, rfl⟩
  | cons x xs ih =>
    intro h
    have hx : jsSpace x = true := h x (List.mem_cons_self x xs)
    have ihs := ih (fun c hc => h c (List.mem_cons_of_mem x hc))
    constructor
    · rw [collapseWS, if_pos hx, if_pos rfl]
      exact ihs.1
    · rw [if_neg (List.cons_ne_nil x xs)]
      simp [collapseWS, hx, ihs.1]

lemma tokenize_of_jsTrim_nil {q : Str} (h : jsTrim q = []) :
    tokenize (some q) = [] := by
  by_cases hq : q = []
  · subst hq; rfl
  · have hsp := jsTrim_nil_imp_all_space h
    have hnorm : normalizeText (some q) = [] := by
      simp only [normalizeText]
      rw [if_neg hq]
      have hmap : ((q.map Char.toLower).map punctToSpace).map dashToSpace = q := by
        rw [List.map_map, List.map_map]
        have : ∀ c ∈ q, ((dashToSpace ∘ punctToSpace) ∘ Char.toLower) c = id c := by
          intro c hc
          obtain ⟨h1, h2, h3⟩ := space_char_fixed (hsp c hc)
          simp [Function.comp, h1, h2, h3]
        rw [List.map_congr_left this, List.map_id]
      rw [hmap, (collapseWS_all_space q hsp).2, if_neg hq]
      decide
    simp only [tokenize]
    rw [if_neg hq, hnorm]
    decide

lemma performAdvancedSearch_eq_sort (products : List Product) (q : Str)
    (h : tokenize (some q) ≠ []) :
    performAdvancedSearch products (some q) =
      (retainedResults products (tokenize (some q))).mergeSort resultLE := by
  have h1 : ¬(jsTrim q).length = 0 := by
    intro hl
    exact h (tokenize_of_jsTrim_nil (List.length_eq_zero.mp hl))
  simp only [performAdvancedSearch]
  rw [if_neg h1, if_neg h]

lemma termScore_ge_half (e : IndexEntry) (s : Str) (h : termMatched e s = true) :
    (1 / 2 : ℚ) ≤ termScore e s := by
  unfold termMatched at h
  simp only [Bool.or_eq_true, decide_eq_true_eq, List.any_eq_true, or_assoc] at h
  have n1 := exactTitleScore_nonneg e s
  have n2 := fuzzyTitleScore_nonneg e s
  have n3 := exactDescScore_nonneg e s
  have n4 := fuzzyDescScore_nonneg e s
  have n5 := titlePhraseScore_nonneg e s
  have n6 := descPhraseScore_nonneg e s
  unfold termScore
  rcases h with h | ⟨t, ht, hf⟩ | h | ⟨t, ht, hf⟩ | h | h
  · have : exactTitleScore e s = 3 := by unfold exactTitleScore; rw [if_pos h]
    linarith
  · have : (2 : ℚ) ≤ fuzzyTitleScore e s := mapSum_single_le (by norm_num) ht hf
    linarith
  · have : exactDescScore e s = 1 := by unfold exactDescScore; rw [if_pos h]
    linarith
  · have : (0.5 : ℚ) ≤ fuzzyDescScore e s := mapSum_single_le (by norm_num) ht hf
    norm_num at this
    linarith
  · have : titlePhraseScore e s = 1 := by unfold titlePhraseScore; rw [if_pos h]
    linarith
  · have : descPhraseScore e s = 0.5 := by unfold descPhraseScore; rw [if_pos h]
    norm_num at this
    linarith

lemma base_ge_half (tokens : List Str) (e : IndexEntry)
    (h : 0 < tokens.countP (fun s => termMatched e s)) :
    (1 / 2 : ℚ) ≤ (tokens.map (fun s => if termMatched e s then termScore e s else 0)).sum := by
  obtain ⟨s, hs, hm⟩ := List.countP_pos_iff.mp h
  have hnn : ∀ x ∈ tokens.map (fun s => if termMatched e s then termScore e s else 0), 0 ≤ x := by
    intro x hx
    obtain ⟨u, _, rfl⟩ := List.mem_map.mp hx
    by_cases hu : termMatched e u = true
    · rw [if_pos hu]; exact termScore_nonneg e u
    · rw [if_neg hu]
  have hmem : (if termMatched e s = true then termScore e s else 0)
      ∈ tokens.map (fun s => if termMatched e s then termScore e s else 0) :=
    List.mem_map_of_mem _ hs
  rw [if_pos hm] at hmem
  calc (1 / 2 : ℚ) ≤ termScore e s := termScore_ge_half e s hm
    _ ≤ _ := List.single_le_sum hnn _ hmem

lemma mem_retained {products : List Product} {tokens : List Str} {r : SearchResult}
    (hr : r ∈ retainedResults products tokens) :
    ∃ e ∈ buildSearchIndex products,
      0 < (calculateRelevanceScore tokens e).matchedTerms ∧
      r = fullResult products tokens e := by
  unfold retainedResults at hr
  rw [List.mem_filterMap] at hr
  obtain ⟨e, he, hcond⟩ := hr
  by_cases hm : 0 < (calculateRelevanceScore tokens e).matchedTerms
  · rw [if_pos hm] at hcond
    exact ⟨e, he, hm, (Option.some.injEq _ _ ▸ hcond).symm⟩
  · rw [if_neg hm] at hcond
    exact absurd hcond (by simp)

/-- Claim C10: every result of a search with a non-empty token list has score
at least 1/2 plus 2 divided by the number of query tokens, hence strictly
positive; score 0 can only come from the empty-query pass-through. -/
theorem search_scores_positive (products : List Product) (q : Str)
    (h : tokenize (some q) ≠ []) :
    ∀ r ∈ performAdvancedSearch products (some q),
      (1 / 2 : ℚ) + 2 / ((tokenize (some q)).length : ℚ) ≤ r.score ∧ 0 < r.score := by
  intro r hr
  rw [performAdvancedSearch_eq_sort products q h, List.mem_mergeSort] at hr
  obtain ⟨e, _, hm, rfl⟩ := mem_retained hr
  set tokens := tokenize (some q) with htok
  have hlen : 0 < tokens.length := List.length_pos.mpr h
  have hmc : 0 < tokens.countP (fun s => termMatched e s) := by
    have : (calculateRelevanceScore tokens e).matchedTerms
        = tokens.countP (fun s => termMatched e s) := rfl
    rwa [this] at hm
  have hbase := base_ge_half tokens e hmc
  have hscore : (fullResult products tokens e).score =
      (tokens.map (fun s => if termMatched e s then termScore e s else 0)).sum +
        ((tokens.countP (fun s => termMatched e s) : ℚ) / (tokens.length : ℚ)) * 2 := rfl
  have hlenq : (0 : ℚ) < (tokens.length : ℚ) := by exact_mod_cast hlen
  have hone : (1 : ℚ) ≤ (tokens.countP (fun s => termMatched e s) : ℚ) := by
    exact_mod_cast hmc
  have hcov : (1 : ℚ) / (tokens.length : ℚ)
      ≤ (tokens.countP (fun s => termMatched e s) : ℚ) / (tokens.length : ℚ) := by
    gcongr
  constructor
  · rw [hscore]
    have : (2 : ℚ) / (tokens.length : ℚ) = ((1 : ℚ) / (tokens.length : ℚ)) * 2 := by ring
    rw [this]
    nlinarith [hcov, hbase]
  · rw [hscore]
    have hc2 : (0 : ℚ) < ((1 : ℚ) / (tokens.length : ℚ)) * 2 := by positivity
    nlinarith [hcov, hbase]

/-- Witness for C10: the query "hello" against a one-product catalogue. -/
theorem search_scores_positive_witness :
    tokenize (some ("hello".toList)) ≠ [] ∧
    (∀ r ∈ performAdvancedSearch
        [Product.mk (some (OriginalData.mk (some ("hello".toList)) none)) none]
        (some ("hello".toList)),
      (1 / 2 : ℚ) + 2 / ((tokenize (some ("hello".toList))).length : ℚ) ≤ r.score ∧
        0 < r.score) :=
  ⟨by decide, search_scores_positive _ _ (by decide)⟩

end FashionSearch

namespace FashionSearch

/-- Claim C3: a null, empty, whitespace-only or token-free query makes the
search return every product with score 0 in original index order — a
pass-through, not an empty result. -/
theorem empty_query_passthrough (products : List Product) (query : Option Str)
    (h : query = none ∨
      ∃ q, query = some q ∧ (jsTrim q = [] ∨ tokenize (some q) = [])) :
    performAdvancedSearch products query = passThrough products ∧
    (performAdvancedSearch products query).length = products.length ∧
    (∀ r ∈ performAdvancedSearch products query, r.score = 0) ∧
    (performAdvancedSearch products query).map SearchResult.product = products := by
  have hmain : performAdvancedSearch products query = passThrough products := by
    rcases h with rfl | ⟨q, rfl, hc⟩
    · rfl
    · simp only [performAdvancedSearch]
      rcases hc with hc | hc
      · rw [hc]
        simp
      · by_cases ht : (jsTrim q).length = 0
        · rw [if_pos ht]
        · rw [if_neg ht, if_pos hc]
  refine ⟨hmain, ?_, ?_, ?_⟩
  · rw [hmain]
    unfold passThrough
    rw [List.length_map]
  · rw [hmain]
    intro r hr
    unfold passThrough at hr
    obtain ⟨p, _, rfl⟩ := List.mem_map.mp hr
    rfl
  · rw [hmain]
    unfold passThrough
    rw [List.map_map]
    have : ∀ p ∈ products,
        (SearchResult.product ∘ fun p =>
          SearchResult.mk p 0 none none) p = id p := fun p _ => rfl
    rw [List.map_congr_left this, List.map_id]

/-- Witness for C3: a query of whitespace and a stop word against a one-product
catalogue. -/
theorem empty_query_passthrough_witness :
    (some ("  the  ".toList) = (none : Option Str) ∨
      ∃ q, some ("  the  ".toList) = some q ∧
        (jsTrim q = [] ∨ tokenize (some q) = [])) ∧
    (performAdvancedSearch [Product.mk none none] (some ("  the  ".toList)) =
        passThrough [Product.mk none none] ∧
      (performAdvancedSearch [Product.mk none none] (some ("  the  ".toList))).length =
        [Product.mk none none].length ∧
      (∀ r ∈ performAdvancedSearch [Product.mk none none] (some ("  the  ".toList)),
        r.score = 0) ∧
      (performAdvancedSearch [Product.mk none none]
          (some ("  the  ".toList))).map SearchResult.product = [Product.mk none none]) :=
  ⟨Or.inr ⟨_, rfl, Or.inr (by decide)⟩,
   empty_query_passthrough _ _ (Or.inr ⟨_, rfl, Or.inr (by decide)⟩)⟩

lemma resultLE_iff (a b : SearchResult) : resultLE a b = true ↔
    (b.score < a.score ∨ (a.score = b.score ∧
      (covOf b < covOf a ∨ (covOf a = covOf b ∧ confOf b.product ≤ confOf a.product)))) := by
  unfold resultLE
  by_cases hs : a.score = b.score
  · rw [if_pos hs]
    by_cases hc : covOf a = covOf b
    · rw [if_pos hc]
      simp [hs, hc]
    · rw [if_neg hc]
      simp [hs, hc]
  · rw [if_neg hs]
    simp [hs]

lemma resultLE_total (a b : SearchResult) : (resultLE a b || resultLE b a) = true := by
  simp only [Bool.or_eq_true, resultLE_iff]
  by_cases hs : a.score = b.score
  · by_cases hc : covOf a = covOf b
    · rcases le_total (confOf b.product) (confOf a.product) with h | h
      · exact Or.inl (Or.inr ⟨hs, Or.inr ⟨hc, h⟩⟩)
      · exact Or.inr (Or.inr ⟨hs.symm, Or.inr ⟨hc.symm, h⟩⟩)
    · rcases lt_or_gt_of_ne hc with h | h
      · exact Or.inr (Or.inr ⟨hs.symm, Or.inl h⟩)
      · exact Or.inl (Or.inr ⟨hs, Or.inl h⟩)
  · rcases lt_or_gt_of_ne hs with h | h
    · exact Or.inr (Or.inl h)
    · exact Or.inl (Or.inl h)

lemma resultLE_trans (a b c : SearchResult)
    (hab : resultLE a b = true) (hbc : resultLE b c = true) : resultLE a c = true := by
  rw [resultLE_iff] at hab hbc ⊢
  rcases hab with h1 | ⟨h1, h1'⟩ <;> rcases hbc with h2 | ⟨h2, h2'⟩
  · exact Or.inl (lt_trans h2 h1)
  · exact Or.inl (h2 ▸ h1)
  · exact Or.inl (by rw [h1]; exact h2)
  · refine Or.inr ⟨h1.trans h2, ?_⟩
    rcases h1' with g1 | ⟨g1, g1'⟩ <;> rcases h2' with g2 | ⟨g2, g2'⟩
    · exact Or.inl (lt_trans g2 g1)
    · exact Or.inl (g2 ▸ g1)
    · exact Or.inl (by rw [g1]; exact g2)
    · exact Or.inr ⟨g1.trans g2, le_trans g2' g1'⟩

lemma keys_eq_resultLE (a b : SearchResult) (hs : a.score = b.score)
    (hc : covOf a = covOf b) (hf : confOf a.product = confOf b.product) :
    resultLE a b = true := by
  rw [resultLE_iff]
  exact Or.inr ⟨hs, Or.inr ⟨hc, le_of_eq hf.symm⟩⟩

end FashionSearch

namespace FashionSearch

/-- Claim C4: for a non-empty tokenizable query the search output is ordered by
score descending, then coverage descending, then confidence descending, and
the sort is stable: it is a permutation of the retained results in which
results agreeing on all three keys keep their original relative order. -/
theorem search_sorted_stable (products : List Product) (q : Str)
    (h : tokenize (some q) ≠ []) :
    (performAdvancedSearch products (some q)).Pairwise
        (fun a b => b.score < a.score ∨ (a.score = b.score ∧
          (covOf b < covOf a ∨ (covOf a = covOf b ∧
            confOf b.product ≤ confOf a.product)))) ∧
    (performAdvancedSearch products (some q)).Perm
        (retainedResults products (tokenize (some q))) ∧
    (∀ sc cv cf : ℚ,
      (performAdvancedSearch products (some q)).filter
          (fun r => decide (r.score = sc ∧ covOf r = cv ∧ confOf r.product = cf)) =
        (retainedResults products (tokenize (some q))).filter
          (fun r => decide (r.score = sc ∧ covOf r = cv ∧ confOf r.product = cf))) := by
  rw [performAdvancedSearch_eq_sort products q h]
  refine ⟨?_, List.mergeSort_perm _ _, ?_⟩
  · have hp := List.sorted_mergeSort resultLE_trans resultLE_total
      (retainedResults products (tokenize (some q)))
    exact hp.imp (fun hab => (resultLE_iff _ _).mp hab)
  · intro sc cv cf
    set p : SearchResult → Bool :=
      fun r => decide (r.score = sc ∧ covOf r = cv ∧ confOf r.product = cf) with hpdef
    set l := retainedResults products (tokenize (some q)) with hldef
    have hpw : (l.filter p).Pairwise (fun a b => resultLE a b = true) := by
      rw [List.pairwise_iff_forall_sublist]
      intro a b hsub
      have ha : a ∈ l.filter p := hsub.subset (by simp)
      have hb : b ∈ l.filter p := hsub.subset (by simp)
      obtain ⟨a1, a2, a3⟩ := of_decide_eq_true ((List.mem_filter.mp ha).2)
      obtain ⟨b1, b2, b3⟩ := of_decide_eq_true ((List.mem_filter.mp hb).2)
      exact keys_eq_resultLE a b (a1.trans b1.symm) (a2.trans b2.symm) (a3.trans b3.symm)
    have hsub : (l.filter p).Sublist (l.mergeSort resultLE) :=
      List.sublist_mergeSort resultLE_trans resultLE_total hpw (List.filter_sublist l)
    have hsub2 : ((l.filter p).filter p).Sublist ((l.mergeSort resultLE).filter p) :=
      List.Sublist.filter p hsub
    have hff : (l.filter p).filter p = l.filter p := by
      rw [List.filter_filter]
      exact List.filter_congr (fun a _ => Bool.and_self (p a))
    rw [hff] at hsub2
    have hperm : ((l.mergeSort resultLE).filter p).Perm (l.filter p) :=
      (List.mergeSort_perm l resultLE).filter p
    exact (hsub2.eq_of_length hperm.length_eq.symm).symm

/-- Witness for C4: the query "hello" against a one-product catalogue. -/
theorem search_sorted_stable_witness :
    tokenize (some ("hello".toList)) ≠ [] ∧
    ((performAdvancedSearch
          [Product.mk (some (OriginalData.mk (some ("hello".toList)) none)) none]
          (some ("hello".toList))).Pairwise
        (fun a b => b.score < a.score ∨ (a.score = b.score ∧
          (covOf b < covOf a ∨ (covOf a = covOf b ∧
            confOf b.product ≤ confOf a.product)))) ∧
      (performAdvancedSearch
          [Product.mk (some (OriginalData.mk (some ("hello".toList)) none)) none]
          (some ("hello".toList))).Perm
        (retainedResults
          [Product.mk (some (OriginalData.mk (some ("hello".toList)) none)) none]
          (tokenize (some ("hello".toList)))) ∧
      (∀ sc cv cf : ℚ,
        (performAdvancedSearch
            [Product.mk (some (OriginalData.mk (some ("hello".toList)) none)) none]
            (some ("hello".toList))).filter
            (fun r => decide (r.score = sc ∧ covOf r = cv ∧ confOf r.product = cf)) =
          (retainedResults
            [Product.mk (some (OriginalData.mk (some ("hello".toList)) none)) none]
            (tokenize (some ("hello".toList)))).filter
            (fun r => decide (r.score = sc ∧ covOf r = cv ∧ confOf r.product = cf)))) :=
  ⟨by decide, search_sorted_stable _ _ (by decide)⟩

/-- Claim C5: the search retains exactly the scored entries with at least one
matched term; with no exact, fuzzy or substring match anywhere the result is
the empty sequence. -/
theorem search_retains_exactly (products : List Product) (q : Str)
    (h : tokenize (some q) ≠ []) :
    (∀ r ∈ performAdvancedSearch products (some q),
        ∃ e ∈ buildSearchIndex products,
          0 < (calculateRelevanceScore (tokenize (some q)) e).matchedTerms ∧
          r = fullResult products (tokenize (some q)) e) ∧
    (∀ e ∈ buildSearchIndex products,
        0 < (calculateRelevanceScore (tokenize (some q)) e).matchedTerms →
          fullResult products (tokenize (some q)) e ∈
            performAdvancedSearch products (some q)) ∧
    ((∀ e ∈ buildSearchIndex products, ∀ s ∈ tokenize (some q),
        s ∉ e.titleTokens ∧ s ∉ e.descriptionTokens ∧
        (∀ t ∈ e.titleTokens, fuzzyMatch s t (0.8 : ℚ) = false) ∧
        (∀ t ∈ e.descriptionTokens, fuzzyMatch s t (0.8 : ℚ) = false) ∧
        jsIncludes e.normalizedTitle s = false ∧
        jsIncludes e.normalizedDescription s = false) →
      performAdvancedSearch products (some q) = []) := by
  rw [performAdvancedSearch_eq_sort products q h]
  refine ⟨?_, ?_, ?_⟩
  · intro r hr
    rw [List.mem_mergeSort] at hr
    exact mem_retained hr
  · intro e he hm
    rw [List.mem_mergeSort]
    unfold retainedResults
    rw [List.mem_filterMap]
    exact ⟨e, he, by rw [if_pos hm]⟩
  · intro hnone
    have hret : retainedResults products (tokenize (some q)) = [] := by
      unfold retainedResults
      rw [List.filterMap_eq_nil_iff]
      intro e he
      have hterm : ∀ s ∈ tokenize (some q), termMatched e s = false := by
        intro s hs
        obtain ⟨h1, h2, h3, h4, h5, h6⟩ := hnone e he s hs
        unfold termMatched
        have ha : e.titleTokens.any (fun t => fuzzyMatch s t (0.8 : ℚ)) = false :=
          List.any_eq_false.mpr (fun t ht => by rw [h3 t ht]; exact Bool.false_ne_true)
        have hb : e.descriptionTokens.any (fun t => fuzzyMatch s t (0.8 : ℚ)) = false :=
          List.any_eq_false.mpr (fun t ht => by rw [h4 t ht]; exact Bool.false_ne_true)
        simp [h1, h2, h5, h6, ha, hb]
      have hm : (calculateRelevanceScore (tokenize (some q)) e).matchedTerms = 0 := by
        have : (calculateRelevanceScore (tokenize (some q)) e).matchedTerms =
            (tokenize (some q)).countP (fun s => termMatched e s) := rfl
        rw [this, List.countP_eq_zero]
        intro s hs
        rw [hterm s hs]
        exact Bool.false_ne_true
      rw [hm]
      simp
    rw [hret]
    exact List.mergeSort_nil

/-- Witness for C5: the query "hello" against a one-product catalogue. -/
theorem search_retains_exactly_witness :
    tokenize (some ("hello".toList)) ≠ [] ∧
    ((∀ r ∈ performAdvancedSearch
          [Product.mk (some (OriginalData.mk (some ("hello".toList)) none)) none]
          (some ("hello".toList)),
        ∃ e ∈ buildSearchIndex
            [Product.mk (some (OriginalData.mk (some ("hello".toList)) none)) none],
          0 < (calculateRelevanceScore (tokenize (some ("hello".toList))) e).matchedTerms ∧
          r = fullResult
            [Product.mk (some (OriginalData.mk (some ("hello".toList)) none)) none]
            (tokenize (some ("hello".toList))) e) ∧
      (∀ e ∈ buildSearchIndex
            [Product.mk (some (OriginalData.mk (some ("hello".toList)) none)) none],
          0 < (calculateRelevanceScore (tokenize (some ("hello".toList))) e).matchedTerms →
            fullResult
              [Product.mk (some (OriginalData.mk (some ("hello".toList)) none)) none]
              (tokenize (some ("hello".toList))) e ∈
              performAdvancedSearch
                [Product.mk (some (OriginalData.mk (some ("hello".toList)) none)) none]
                (some ("hello".toList))) ∧
      ((∀ e ∈ buildSearchIndex
            [Product.mk (some (OriginalData.mk (some ("hello".toList)) none)) none],
          ∀ s ∈ tokenize (some ("hello".toList)),
          s ∉ e.titleTokens ∧ s ∉ e.descriptionTokens ∧
          (∀ t ∈ e.titleTokens, fuzzyMatch s t (0.8 : ℚ) = false) ∧
          (∀ t ∈ e.descriptionTokens, fuzzyMatch s t (0.8 : ℚ) = false) ∧
          jsIncludes e.normalizedTitle s = false ∧
          jsIncludes e.normalizedDescription s = false) →
        performAdvancedSearch
          [Product.mk (some (OriginalData.mk (some ("hello".toList)) none)) none]
          (some ("hello".toList)) = [])) :=
  ⟨by decide, search_retains_exactly _ _ (by decide)⟩

end FashionSearch

namespace FashionSearch

lemma tokenize_some_getD (o : Option Str) : tokenize (some (o.getD [])) = tokenize o := by
  cases o <;> rfl

/-- Claim C7: buildSearchIndex yields one entry per product in positional
correspondence, allTokens is exactly titleTokens followed by
descriptionTokens, and missing fields degrade to empty token lists. -/
theorem buildSearchIndex_spec (products : List Product) :
    (buildSearchIndex products).length = products.length ∧
    (∀ e ∈ buildSearchIndex products,
      e.allTokens = e.titleTokens ++ e.descriptionTokens) ∧
    (∀ i e, (buildSearchIndex products).get? i = some e →
      ∃ p, products.get? i = some p ∧ e.productIndex = i ∧
        e.titleTokens = tokenize (p.original_data.bind OriginalData.title) ∧
        e.descriptionTokens = tokenize (p.original_data.bind OriginalData.description) ∧
        e.normalizedTitle = normalizeText (p.original_data.bind OriginalData.title) ∧
        e.normalizedDescription =
          normalizeText (p.original_data.bind OriginalData.description) ∧
        (p.original_data = none →
          e.titleTokens = [] ∧ e.descriptionTokens = [] ∧ e.allTokens = [])) := by
  refine ⟨?_, ?_, ?_⟩
  · unfold buildSearchIndex
    rw [List.length_map, List.enum_length]
  · intro e he
    unfold buildSearchIndex at he
    obtain ⟨pi, _, rfl⟩ := List.mem_map.mp he
    simp only
    rw [tokenize_some_getD, tokenize_some_getD]
  · intro i e he
    unfold buildSearchIndex at he
    rw [List.get?_map, List.get?_enum] at he
    cases hp : products.get? i with
    | none => rw [hp] at he; simp at he
    | some p =>
      rw [hp] at he
      simp only [Option.map_some', Option.some.injEq] at he
      subst he
      refine ⟨p, rfl, rfl, rfl, rfl, rfl, rfl, ?_⟩
      intro hnone
      rw [hnone]
      exact ⟨rfl, rfl, rfl⟩

/-- Witness for C7: a catalogue with one product that has no original_data. -/
theorem buildSearchIndex_spec_witness :
    (buildSearchIndex [Product.mk none none]).length = [Product.mk none none].length ∧
    ((IndexEntry.mk 0 [] [] [] [] []).allTokens =
      (IndexEntry.mk 0 [] [] [] [] []).titleTokens ++
        (IndexEntry.mk 0 [] [] [] [] []).descriptionTokens) ∧
    (∃ p, [Product.mk none none].get? 0 = some p ∧
      (IndexEntry.mk 0 [] [] [] [] []).productIndex = 0 ∧
      (IndexEntry.mk 0 [] [] [] [] []).titleTokens =
        tokenize (p.original_data.bind OriginalData.title) ∧
      (IndexEntry.mk 0 [] [] [] [] []).descriptionTokens =
        tokenize (p.original_data.bind OriginalData.description) ∧
      (IndexEntry.mk 0 [] [] [] [] []).normalizedTitle =
        normalizeText (p.original_data.bind OriginalData.title) ∧
      (IndexEntry.mk 0 [] [] [] [] []).normalizedDescription =
        normalizeText (p.original_data.bind OriginalData.description) ∧
      (p.original_data = none →
        (IndexEntry.mk 0 [] [] [] [] []).titleTokens = [] ∧
        (IndexEntry.mk 0 [] [] [] [] []).descriptionTokens = [] ∧
        (IndexEntry.mk 0 [] [] [] [] []).allTokens = [])) :=
  ⟨(buildSearchIndex_spec [Product.mk none none]).1,
   (buildSearchIndex_spec [Product.mk none none]).2.1 _ (by decide),
   (buildSearchIndex_spec [Product.mk none none]).2.2 0 _ (by decide)⟩

lemma insertSet_mem {l : List Str} {x y : Str} (h : y ∈ insertSet l x) :
    y ∈ l ∨ y = x := by
  unfold insertSet at h
  by_cases hx : x ∈ l
  · rw [if_pos hx] at h
    exact Or.inl h
  · rw [if_neg hx] at h
    rcases List.mem_append.mp h with h | h
    · exact Or.inl h
    · exact Or.inr (List.mem_singleton.mp h)

lemma addSuggestion_single_ne {qt : Str} {acc : List Str} {tok : Str}
    (hacc : ∀ x ∈ acc, x ≠ qt) : ∀ x ∈ addSuggestion [qt] acc tok, x ≠ qt := by
  intro x hx
  unfold addSuggestion at hx
  simp only [List.foldl_cons, List.foldl_nil] at hx
  have hacc3 : ∀ y ∈ (if tok ≠ qt ∧ fuzzyMatch qt tok (0.7 : ℚ) = true
      then insertSet acc tok else acc), y ≠ qt := by
    intro y hy
    by_cases h1 : tok ≠ qt ∧ fuzzyMatch qt tok (0.7 : ℚ) = true
    · rw [if_pos h1] at hy
      rcases insertSet_mem hy with hy | rfl
      · exact hacc y hy
      · exact h1.1
    · rw [if_neg h1] at hy
      exact hacc y hy
  by_cases h2 : qt.length < tok.length ∧ jsIncludes tok qt = true
  · rw [if_pos h2] at hx
    rcases insertSet_mem hx with hx | rfl
    · exact hacc3 x hx
    · intro heq
      rw [heq] at h2
      exact lt_irrefl _ h2.1
  · rw [if_neg h2] at hx
    exact hacc3 x hx

lemma foldl_addSuggestion_ne {qt : Str} :
    ∀ (l : List Str) (acc : List Str), (∀ x ∈ acc, x ≠ qt) →
      ∀ x ∈ l.foldl (addSuggestion [qt]) acc, x ≠ qt := by
  intro l
  induction l with
  | nil => intro acc hacc x hx; exact hacc x hx
  | cons t ts ih =>
    intro acc hacc x hx
    rw [List.foldl_cons] at hx
    exact ih _ (addSuggestion_single_ne hacc) x hx

lemma foldl_entries_ne {qt : Str} :
    ∀ (entries : List IndexEntry) (acc : List Str), (∀ x ∈ acc, x ≠ qt) →
      ∀ x ∈ entries.foldl (fun acc e => e.allTokens.foldl (addSuggestion [qt]) acc) acc,
        x ≠ qt := by
  intro entries
  induction entries with
  | nil => intro acc hacc x hx; exact hacc x hx
  | cons e es ih =>
    intro acc hacc x hx
    rw [List.foldl_cons] at hx
    exact ih _ (foldl_addSuggestion_ne e.allTokens acc hacc) x hx

/-- Claim C8: for a single-token query, the suggestion generator never outputs
the query's own token: the fuzzy branch excludes identical candidates and the
containment branch requires a strictly longer candidate. -/
theorem suggestions_exclude_query (products : List Product) (query : Str) (qt : Str)
    (h : tokenize (some query) = [qt]) :
    ∀ sgt ∈ generateSearchSuggestions products query, sgt ≠ qt := by
  intro sgt hs
  unfold generateSearchSuggestions at hs
  rw [h] at hs
  have hmem := List.take_subset 5 _ hs
  exact foldl_entries_ne (buildSearchIndex products) []
    (fun x hx => absurd hx (List.not_mem_nil x)) sgt hmem

/-- Witness for C8: the query "drss" against a catalogue whose only product is
titled "dress shoes". -/
theorem suggestions_exclude_query_witness :
    tokenize (some ("drss".toList)) = [("drss".toList)] ∧
    ∀ sgt ∈ generateSearchSuggestions
        [Product.mk (some (OriginalData.mk (some ("dress shoes".toList)) none)) none]
        ("drss".toList), sgt ≠ ("drss".toList) :=
  ⟨by decide, suggestions_exclude_query _ _ _ (by decide)⟩

end FashionSearch

namespace FashionSearch

lemma leadsWith_append (s r : Str) : leadsWith s (s ++ r) = true := by
  induction s with
  | nil => rfl
  | cons c cs ih => simp [leadsWith, ih]

lemma jsIncludes_nil_needle (hay : Str) : jsIncludes hay [] = true := by
  cases hay <;> simp [jsIncludes, leadsWith]

lemma jsIncludes_decomp (p s r : Str) : jsIncludes (p ++ s ++ r) s = true := by
  induction p with
  | nil =>
    rw [List.nil_append]
    cases s with
    | nil => exact jsIncludes_nil_needle r
    | cons c cs =>
      rw [List.cons_append]
      simp only [jsIncludes, Bool.or_eq_true]
      exact Or.inl (leadsWith_append (c :: cs) r)
  | cons a p' ih =>
    rw [List.cons_append]
    simp only [jsIncludes, Bool.or_eq_true]
    right
    exact ih

lemma splitOnChar_cons (sep c : Char) {cs : Str} {t0 : Str} {trest : List Str}
    (h : splitOnChar sep cs = t0 :: trest) :
    splitOnChar sep (c :: cs) =
      if c = sep then [] :: t0 :: trest else (c :: t0) :: trest := by
  rw [splitOnChar, h]

lemma splitOnChar_ne_nil (sep : Char) : ∀ l : Str, splitOnChar sep l ≠ [] := by
  intro l
  induction l with
  | nil => simp [splitOnChar]
  | cons c cs ih =>
    cases hsp : splitOnChar sep cs with
    | nil => exact absurd hsp ih
    | cons t0 trest =>
      rw [splitOnChar_cons sep c hsp]
      by_cases hc : c = sep
      · rw [if_pos hc]
        simp
      · rw [if_neg hc]
        simp

lemma splitOnChar_head (sep : Char) :
    ∀ (l : Str) (s0 : Str) (rest : List Str),
      splitOnChar sep l = s0 :: rest → ∃ r, l = s0 ++ r := by
  intro l
  induction l with
  | nil =>
    intro s0 rest h
    rw [splitOnChar] at h
    injection h with h1 h2
    exact ⟨[], by simp [← h1]⟩
  | cons c cs ih =>
    intro s0 rest h
    cases hsp : splitOnChar sep cs with
    | nil => exact absurd hsp (splitOnChar_ne_nil sep cs)
    | cons t0 trest =>
      rw [splitOnChar_cons sep c hsp] at h
      by_cases hc : c = sep
      · rw [if_pos hc] at h
        injection h with h1 h2
        exact ⟨c :: cs, by rw [← h1]; rfl⟩
      · rw [if_neg hc] at h
        injection h with h1 h2
        obtain ⟨r, hr⟩ := ih t0 trest hsp
        exact ⟨r, by rw [← h1, hr]; rfl⟩

lemma splitOnChar_mem_decomp (sep : Char) :
    ∀ (l : Str) (s : Str), s ∈ splitOnChar sep l → ∃ p r, l = p ++ s ++ r := by
  intro l
  induction l with
  | nil =>
    intro s h
    rw [splitOnChar] at h
    rw [List.mem_singleton] at h
    exact ⟨[], [], by simp [h]⟩
  | cons c cs ih =>
    intro s h
    cases hsp : splitOnChar sep cs with
    | nil => exact absurd hsp (splitOnChar_ne_nil sep cs)
    | cons t0 trest =>
      rw [splitOnChar_cons sep c hsp] at h
      by_cases hc : c = sep
      · rw [if_pos hc] at h
        rcases List.mem_cons.mp h with rfl | h2
        · exact ⟨[], c :: cs, by simp⟩
        · obtain ⟨p, r, hpr⟩ := ih s (hsp ▸ h2)
          exact ⟨c :: p, r, by rw [hpr]; rfl⟩
      · rw [if_neg hc] at h
        rcases List.mem_cons.mp h with rfl | h2
        · obtain ⟨r, hr⟩ := splitOnChar_head sep cs t0 trest hsp
          exact ⟨[], r, by rw [hr]; rfl⟩
        · obtain ⟨p, r, hpr⟩ := ih s (hsp ▸ List.mem_cons_of_mem t0 h2)
          exact ⟨c :: p, r, by rw [hpr]; rfl⟩

lemma mem_tokenize_imp_jsIncludes {t s : Str} (h : s ∈ tokenize (some t)) :
    jsIncludes (normalizeText (some t)) s = true := by
  by_cases ht : t = []
  · subst ht
    exact absurd h (by simp [tokenize])
  · simp only [tokenize] at h
    rw [if_neg ht] at h
    have h1 := (List.mem_filter.mp h).1
    have h2 := (List.mem_filter.mp h1).1
    obtain ⟨p, r, hpr⟩ := splitOnChar_mem_decomp ' ' _ s h2
    rw [hpr]
    exact jsIncludes_decomp p s r

lemma mem_titleTokens_jsIncludes {products : List Product} {e : IndexEntry} {s : Str}
    (he : e ∈ buildSearchIndex products) (hs : s ∈ e.titleTokens) :
    jsIncludes e.normalizedTitle s = true := by
  unfold buildSearchIndex at he
  obtain ⟨pi, hpi, rfl⟩ := List.mem_map.mp he
  have hs' : s ∈ tokenize (pi.2.original_data.bind OriginalData.title) := hs
  show jsIncludes (normalizeText (pi.2.original_data.bind OriginalData.title)) s = true
  cases ho : pi.2.original_data.bind OriginalData.title with
  | none =>
    rw [ho] at hs'
    exact absurd hs' (List.not_mem_nil s)
  | some tt =>
    rw [ho] at hs'
    exact mem_tokenize_imp_jsIncludes hs'

lemma calc_single_double_bonus (e : IndexEntry) (s : Str)
    (h1 : s ∈ e.titleTokens)
    (h2 : e.titleTokens.countP (fun t => fuzzyMatch s t (0.8 : ℚ)) = 1)
    (h3 : s ∉ e.descriptionTokens)
    (h4 : e.descriptionTokens.countP (fun t => fuzzyMatch s t (0.8 : ℚ)) = 0)
    (h5 : jsIncludes e.normalizedTitle s = true)
    (h6 : jsIncludes e.normalizedDescription s = false) :
    calculateRelevanceScore [s] e = ScoreResult.mk 8 1 1 1 := by
  have hmatch : termMatched e s = true := by
    unfold termMatched
    simp [h1]
  have hterm : termScore e s = 6 := by
    unfold termScore exactTitleScore fuzzyTitleScore exactDescScore fuzzyDescScore
      titlePhraseScore descPhraseScore
    rw [if_pos h1, if_neg h3, mapSum_count, mapSum_count, h2, h4, if_pos h5,
      if_neg (by rw [h6]; exact Bool.false_ne_true)]
    norm_num
  unfold calculateRelevanceScore
  simp only [List.countP_cons, List.countP_nil, List.map_cons, List.map_nil,
    List.sum_cons, List.sum_nil, List.length_cons, List.length_nil, hmatch,
    if_pos rfl, hterm, if_true]
  norm_num

/-- Claim C1 is false on the code: for the one-product catalogue titled
"hello" and the single-term query "hello" — the query token equals the sole
title token, is absent from the description tokens and from the normalized
description — the scorer returns score 8 (3 exact + 2 fuzzy self-match +
1 title phrase containment + 2 coverage), not the claimed 5. -/
theorem single_exact_title_score_counterexample :
    buildSearchIndex [Product.mk (some (OriginalData.mk (some ("hello".toList)) none)) none]
      = [IndexEntry.mk 0 [("hello".toList)] [] ("hello".toList) [] [("hello".toList)]] ∧
    tokenize (some ("hello".toList)) = [("hello".toList)] ∧
    ("hello".toList) ∈
      (IndexEntry.mk 0 [("hello".toList)] [] ("hello".toList) [] [("hello".toList)]).titleTokens ∧
    ("hello".toList) ∉
      (IndexEntry.mk 0 [("hello".toList)] [] ("hello".toList) []
        [("hello".toList)]).descriptionTokens ∧
    jsIncludes
      (IndexEntry.mk 0 [("hello".toList)] [] ("hello".toList) []
        [("hello".toList)]).normalizedDescription ("hello".toList) = false ∧
    (calculateRelevanceScore [("hello".toList)]
      (IndexEntry.mk 0 [("hello".toList)] [] ("hello".toList) [] [("hello".toList)])).matchedTerms
      = 1 ∧
    (calculateRelevanceScore [("hello".toList)]
      (IndexEntry.mk 0 [("hello".toList)] [] ("hello".toList) [] [("hello".toList)])).score = 8 ∧
    (calculateRelevanceScore [("hello".toList)]
      (IndexEntry.mk 0 [("hello".toList)] [] ("hello".toList) [] [("hello".toList)])).score
      ≠ 5 := by
  have hcalc := calc_single_double_bonus
    (IndexEntry.mk 0 [("hello".toList)] [] ("hello".toList) [] [("hello".toList)])
    ("hello".toList) (by decide) (by decide) (by decide) (by decide) (by decide) (by decide)
  refine ⟨by decide, by decide, by decide, by decide, by decide, ?_, ?_, ?_⟩
  · rw [hcalc]
  · rw [hcalc]
  · rw [hcalc]
    norm_num

/-- Claim C1 (amended): for a single-term query whose sole token is exactly one
title token of a product (the only title token it fuzzy-matches), occurs in no
description token, fuzzy-matches no description token and is not a substring
of the normalized description, the scorer returns score exactly 8.0
(3 exact-title + 2 fuzzy self-match + 1 title phrase containment + coverage
bonus 2) and matchedTerms 1. -/
theorem single_exact_title_score (products : List Product) (q s : Str) (e : IndexEntry)
    (hq : tokenize (some q) = [s])
    (he : e ∈ buildSearchIndex products)
    (h1 : s ∈ e.titleTokens)
    (h2 : e.titleTokens.countP (fun t => fuzzyMatch s t (0.8 : ℚ)) = 1)
    (h3 : s ∉ e.descriptionTokens)
    (h4 : e.descriptionTokens.countP (fun t => fuzzyMatch s t (0.8 : ℚ)) = 0)
    (h5 : jsIncludes e.normalizedDescription s = false) :
    calculateRelevanceScore (tokenize (some q)) e = ScoreResult.mk 8 1 1 1 := by
  rw [hq]
  exact calc_single_double_bonus e s h1 h2 h3 h4 (mem_titleTokens_jsIncludes he h1) h5

/-- Witness for the amended C1 at the concrete "hello" catalogue and query. -/
theorem single_exact_title_score_witness :
    tokenize (some ("hello".toList)) = [("hello".toList)] ∧
    calculateRelevanceScore (tokenize (some ("hello".toList)))
      ((buildSearchIndex
        [Product.mk (some (OriginalData.mk (some ("hello".toList)) none)) none]).getD 0
        (IndexEntry.mk 0 [] [] [] [] [])) = ScoreResult.mk 8 1 1 1 :=
  ⟨by decide,
   single_exact_title_score
     [Product.mk (some (OriginalData.mk (some ("hello".toList)) none)) none]
     ("hello".toList) ("hello".toList) _
     (by decide) (by decide) (by decide) (by decide) (by decide) (by decide) (by decide)⟩

end FashionSearch

namespace FashionSearch

lemma charOfNat_toNat {m : ℕ} (h1 : 97 ≤ m) (h2 : m ≤ 122) : (Char.ofNat m).toNat = m := by
  unfold Char.ofNat
  rw [dif_pos (by left; omega)]
  show (UInt32.ofNat' m _).toNat = m
  simp [UInt32.ofNat', UInt32.toNat, BitVec.toNat_ofNatLt]

lemma toLower_eq_of_range {c : Char} (h : 65 ≤ c.toNat ∧ c.toNat ≤ 90) :
    Char.toLower c = Char.ofNat (c.toNat + 32) := by
  simp only [Char.toLower]
  exact if_pos ⟨h.1, h.2⟩

lemma toLower_eq_self {c : Char} (h : ¬(65 ≤ c.toNat ∧ c.toNat ≤ 90)) :
    Char.toLower c = c := by
  simp only [Char.toLower]
  exact if_neg (fun hc => h ⟨hc.1, hc.2⟩)

lemma toLower_idem (c : Char) : (Char.toLower c).toLower = Char.toLower c := by
  by_cases h : 65 ≤ c.toNat ∧ c.toNat ≤ 90
  · rw [toLower_eq_of_range h]
    apply toLower_eq_self
    rw [charOfNat_toNat (by omega) (by omega)]
    omega
  · rw [toLower_eq_self h, toLower_eq_self h]

/-- Characters that normalizeText leaves unchanged: a space, or a word
character other than underscore that lowercasing fixes. -/
def canonChar (c : Char) : Prop :=
  c = ' ' ∨ (isWordChar c = true ∧ c ≠ '_' ∧ Char.toLower c = c)

lemma space_not_word {c : Char} (h : jsSpace c = true) : isWordChar c = false := by
  unfold jsSpace at h
  simp only [Bool.or_eq_true, decide_eq_true_eq, or_assoc] at h
  rcases h with h | h | h | h | h | h <;> subst h <;> decide

lemma word_not_space {c : Char} (h : isWordChar c = true) : jsSpace c = false := by
  cases hj : jsSpace c
  · rfl
  · rw [space_not_word hj] at h
    exact absurd h Bool.false_ne_true

lemma canon_toLower {c : Char} (h : canonChar c) : Char.toLower c = c := by
  rcases h with rfl | ⟨_, _, h3⟩
  · decide
  · exact h3

lemma canon_punct {c : Char} (h : canonChar c) : punctToSpace c = c := by
  rcases h with rfl | ⟨h1, _, _⟩
  · decide
  · unfold punctToSpace
    rw [if_pos (by rw [h1]; rfl)]

lemma canon_dash {c : Char} (h : canonChar c) : dashToSpace c = c := by
  rcases h with rfl | ⟨h1, h2, _⟩
  · decide
  · have hd : c ≠ '-' := by
      intro hh
      subst hh
      exact absurd h1 (by decide)
    unfold dashToSpace
    rw [if_neg]
    simp [hd, h2]

lemma canon_space_iff {c : Char} (h : canonChar c) : jsSpace c = true ↔ c = ' ' := by
  constructor
  · intro hs
    rcases h with rfl | ⟨h1, _, _⟩
    · rfl
    · rw [word_not_space h1] at hs
      exact absurd hs Bool.false_ne_true
  · intro hc
    subst hc
    decide

/-- The shape of normalizeText output: canonical characters, no two adjacent
whitespace characters, no whitespace at either end. -/
def Canon (l : Str) : Prop :=
  (∀ c ∈ l, canonChar c) ∧
  l.Chain' (fun a b => ¬(jsSpace a = true ∧ jsSpace b = true)) ∧
  (∀ c ∈ l.head?, jsSpace c = false) ∧
  (∀ c ∈ l.getLast?, jsSpace c = false)

lemma collapseWS_false_cons_space {x : Char} {xs : Str} (hx : jsSpace x = true) :
    collapseWS false (x :: xs) = ' ' :: collapseWS true xs := by
  rw [collapseWS, if_pos hx]
  simp

lemma collapseWS_true_cons_space {x : Char} {xs : Str} (hx : jsSpace x = true) :
    collapseWS true (x :: xs) = collapseWS true xs := by
  rw [collapseWS, if_pos hx]
  simp

lemma collapseWS_cons_nonspace (b : Bool) {x : Char} {xs : Str} (hx : jsSpace x = false) :
    collapseWS b (x :: xs) = x :: collapseWS false xs := by
  rw [collapseWS, if_neg (by rw [hx]; exact Bool.false_ne_true)]

lemma collapseWS_id : ∀ l : Str, (∀ c ∈ l, jsSpace c = true → c = ' ') →
    l.Chain' (fun a b => ¬(jsSpace a = true ∧ jsSpace b = true)) →
    (collapseWS false l = l ∧
      ((∀ c ∈ l.head?, jsSpace c = false) → collapseWS true l = l)) := by
  intro l
  induction l with
  | nil => exact fun _ _ => ⟨rfl, fun _ => rfl⟩
  | cons c cs ih =>
    intro hsp hch
    have hch' := List.chain'_cons'.mp hch
    have ih' := ih (fun d hd hds => hsp d (List.mem_cons_of_mem c hd) hds) hch'.2
    constructor
    · by_cases hc : jsSpace c = true
      · have hceq : c = ' ' := hsp c (List.mem_cons_self c cs) hc
        rw [collapseWS_false_cons_space hc]
        have hhead : ∀ d ∈ cs.head?, jsSpace d = false := by
          intro d hd
          cases hj : jsSpace d
          · rfl
          · exact absurd ⟨hc, hj⟩ (hch'.1 d hd)
        rw [ih'.2 hhead, hceq]
      · have hc' : jsSpace c = false := by
          cases hj : jsSpace c
          · rfl
          · exact absurd hj hc
        rw [collapseWS_cons_nonspace false hc', ih'.1]
    · intro hhead
      have hc : jsSpace c = false := hhead c (by simp)
      rw [collapseWS_cons_nonspace true hc, ih'.1]

lemma jsTrim_id {l : Str} (hhead : ∀ c ∈ l.head?, jsSpace c = false)
    (hlast : ∀ c ∈ l.getLast?, jsSpace c = false) : jsTrim l = l := by
  unfold jsTrim
  have h1 : l.dropWhile jsSpace = l := by
    cases l with
    | nil => rfl
    | cons c cs =>
      rw [List.dropWhile_cons, if_neg]
      rw [hhead c (by simp)]
      exact Bool.false_ne_true
  rw [h1]
  have h2 : l.reverse.dropWhile jsSpace = l.reverse := by
    cases hr : l.reverse with
    | nil => rfl
    | cons c cs =>
      rw [List.dropWhile_cons, if_neg]
      have hh : l.getLast? = some c := by
        rw [← List.head?_reverse, hr]
        rfl
      rw [hlast c (Option.mem_def.mpr hh)]
      exact Bool.false_ne_true
  rw [h2, List.reverse_reverse]

lemma normalizeText_of_canon {l : Str} (h : Canon l) : normalizeText (some l) = l := by
  obtain ⟨hmem, hch, hhead, hlast⟩ := h
  by_cases hl : l = []
  · subst hl; rfl
  · simp only [normalizeText]
    rw [if_neg hl]
    have hm1 : l.map Char.toLower = l := by
      have h' : ∀ c ∈ l, Char.toLower c = id c := fun c hc => canon_toLower (hmem c hc)
      rw [List.map_congr_left h', List.map_id]
    have hm2 : l.map punctToSpace = l := by
      have h' : ∀ c ∈ l, punctToSpace c = id c := fun c hc => canon_punct (hmem c hc)
      rw [List.map_congr_left h', List.map_id]
    have hm3 : l.map dashToSpace = l := by
      have h' : ∀ c ∈ l, dashToSpace c = id c := fun c hc => canon_dash (hmem c hc)
      rw [List.map_congr_left h', List.map_id]
    rw [hm1, hm2, hm3]
    have hsp : ∀ c ∈ l, jsSpace c = true → c = ' ' :=
      fun c hc hcs => (canon_space_iff (hmem c hc)).mp hcs
    rw [(collapseWS_id l hsp hch).1]
    exact jsTrim_id hhead hlast

end FashionSearch

namespace FashionSearch

lemma stepChar_canon (c : Char) :
    jsSpace (dashToSpace (punctToSpace (Char.toLower c))) = true ∨
    canonChar (dashToSpace (punctToSpace (Char.toLower c))) := by
  set c' := Char.toLower c with hc'
  by_cases hw : (isWordChar c' || jsSpace c') = true
  · have hpunct : punctToSpace c' = c' := by
      unfold punctToSpace
      rw [if_pos hw]
    rw [hpunct]
    by_cases hd : (decide (c' = '-') || decide (c' = '_')) = true
    · have hds : dashToSpace c' = ' ' := by
        unfold dashToSpace
        rw [if_pos hd]
      rw [hds]
      left
      decide
    · have hdash : dashToSpace c' = c' := by
        unfold dashToSpace
        rw [if_neg hd]
      rw [hdash]
      by_cases hs : jsSpace c' = true
      · exact Or.inl hs
      · right
        right
        have hword : isWordChar c' = true := by
          have hw' := hw
          simp only [Bool.or_eq_true] at hw'
          rcases hw' with h | h
          · exact h
          · exact absurd h hs
        refine ⟨hword, ?_, ?_⟩
        · intro hh
          rw [hh] at hd
          exact hd (by decide)
        · rw [hc']
          exact toLower_idem c
  · have hps : punctToSpace c' = ' ' := by
      unfold punctToSpace
      rw [if_neg hw]
    rw [hps]
    left
    decide

lemma collapseWS_mem : ∀ (l : Str) (b : Bool) (c : Char), c ∈ collapseWS b l →
    c = ' ' ∨ (c ∈ l ∧ jsSpace c = false) := by
  intro l
  induction l with
  | nil =>
    intro b c hc
    cases b <;> exact absurd hc (List.not_mem_nil c)
  | cons x xs ih =>
    intro b c hc
    by_cases hx : jsSpace x = true
    · cases b with
      | true =>
        rw [collapseWS_true_cons_space hx] at hc
        rcases ih true c hc with h | ⟨h1, h2⟩
        · exact Or.inl h
        · exact Or.inr ⟨List.mem_cons_of_mem x h1, h2⟩
      | false =>
        rw [collapseWS_false_cons_space hx] at hc
        rcases List.mem_cons.mp hc with rfl | hc2
        · exact Or.inl rfl
        · rcases ih true c hc2 with h | ⟨h1, h2⟩
          · exact Or.inl h
          · exact Or.inr ⟨List.mem_cons_of_mem x h1, h2⟩
    · have hx' : jsSpace x = false := by
        cases hj : jsSpace x
        · rfl
        · exact absurd hj hx
      rw [collapseWS_cons_nonspace b hx'] at hc
      rcases List.mem_cons.mp hc with rfl | hc2
      · exact Or.inr ⟨List.mem_cons_self c xs, hx'⟩
      · rcases ih false c hc2 with h | ⟨h1, h2⟩
        · exact Or.inl h
        · exact Or.inr ⟨List.mem_cons_of_mem x h1, h2⟩

lemma collapseWS_chain : ∀ l : Str,
    (collapseWS false l).Chain' (fun a b => ¬(jsSpace a = true ∧ jsSpace b = true)) ∧
    (collapseWS true l).Chain' (fun a b => ¬(jsSpace a = true ∧ jsSpace b = true)) ∧
    (∀ c ∈ (collapseWS true l).head?, jsSpace c = false) := by
  intro l
  induction l with
  | nil => exact ⟨List.chain'_nil, List.chain'_nil, fun c hc => by simp [collapseWS] at hc⟩
  | cons x xs ih =>
    obtain ⟨ihf, iht, ihh⟩ := ih
    by_cases hx : jsSpace x = true
    · refine ⟨?_, ?_, ?_⟩
      · rw [collapseWS_false_cons_space hx]
        rw [List.chain'_cons']
        refine ⟨?_, iht⟩
        intro y hy hcontra
        rw [ihh y hy] at hcontra
        exact Bool.false_ne_true hcontra.2
      · rw [collapseWS_true_cons_space hx]
        exact iht
      · rw [collapseWS_true_cons_space hx]
        exact ihh
    · have hx' : jsSpace x = false := by
        cases hj : jsSpace x
        · rfl
        · exact absurd hj hx
      have hcons : (x :: collapseWS false xs).Chain'
          (fun a b => ¬(jsSpace a = true ∧ jsSpace b = true)) := by
        rw [List.chain'_cons']
        refine ⟨?_, ihf⟩
        intro y _ hcontra
        rw [hx'] at hcontra
        exact Bool.false_ne_true hcontra.1
      refine ⟨?_, ?_, ?_⟩
      · rw [collapseWS_cons_nonspace false hx']
        exact hcons
      · rw [collapseWS_cons_nonspace true hx']
        exact hcons
      · rw [collapseWS_cons_nonspace true hx']
        intro c hc
        rw [List.head?_cons, Option.mem_def, Option.some.injEq] at hc
        rw [← hc]
        exact hx'

lemma mem_jsTrim {l : Str} {c : Char} (h : c ∈ jsTrim l) : c ∈ l := by
  unfold jsTrim at h
  rw [List.mem_reverse] at h
  have h1 := (List.dropWhile_sublist jsSpace).mem h
  rw [List.mem_reverse] at h1
  exact (List.dropWhile_sublist jsSpace).mem h1

lemma chain'_jsTrim {l : Str}
    (h : l.Chain' (fun a b => ¬(jsSpace a = true ∧ jsSpace b = true))) :
    (jsTrim l).Chain' (fun a b => ¬(jsSpace a = true ∧ jsSpace b = true)) := by
  unfold jsTrim
  have flipOf : ∀ (m : Str),
      m.Chain' (fun a b => ¬(jsSpace a = true ∧ jsSpace b = true)) →
      m.reverse.Chain' (fun a b => ¬(jsSpace a = true ∧ jsSpace b = true)) := by
    intro m hm
    rw [List.chain'_reverse]
    exact hm.imp (fun a b hab => fun hc => hab ⟨hc.2, hc.1⟩)
  apply flipOf
  apply List.Chain'.suffix _ (List.dropWhile_suffix jsSpace)
  apply flipOf
  exact List.Chain'.suffix h (List.dropWhile_suffix jsSpace)

lemma dropWhile_getLast?_of_ne_nil :
    ∀ l : Str, l.dropWhile jsSpace ≠ [] →
      (l.dropWhile jsSpace).getLast? = l.getLast? := by
  intro l
  induction l with
  | nil => intro h; rfl
  | cons x xs ih =>
    intro h
    rw [List.dropWhile_cons]
    by_cases hx : jsSpace x = true
    · rw [if_pos hx]
      rw [List.dropWhile_cons, if_pos hx] at h
      cases hxs : xs with
      | nil =>
        subst hxs
        exact absurd rfl h
      | cons y ys =>
        rw [← hxs, ih (hxs ▸ h ∘ (by rw [hxs]; exact fun hh => hh)), hxs]
        rw [List.getLast?_cons_cons]
    · rw [if_neg hx]

lemma head?_jsTrim (l : Str) : ∀ c ∈ (jsTrim l).head?, jsSpace c = false := by
  intro c hc
  unfold jsTrim at hc
  rw [List.head?_reverse] at hc
  set l2 := ((l.dropWhile jsSpace).reverse).dropWhile jsSpace with hl2
  cases h2 : l2 with
  | nil =>
    rw [h2] at hc
    simp at hc
  | cons y ys =>
    have hne : l2 ≠ [] := by rw [h2]; exact List.cons_ne_nil y ys
    have hgl : l2.getLast? = (l.dropWhile jsSpace).reverse.getLast? := by
      rw [hl2]
      exact dropWhile_getLast?_of_ne_nil _ (hl2 ▸ hne)
    rw [hgl, List.getLast?_reverse] at hc
    exact head?_dropWhile jsSpace l c hc

lemma getLast?_jsTrim (l : Str) : ∀ c ∈ (jsTrim l).getLast?, jsSpace c = false := by
  intro c hc
  unfold jsTrim at hc
  rw [List.getLast?_reverse] at hc
  exact head?_dropWhile jsSpace _ c hc

lemma canon_normalizeText (t : Str) : Canon (normalizeText (some t)) := by
  by_cases ht : t = []
  · subst ht
    have hn : normalizeText (some ([] : Str)) = [] := rfl
    rw [hn]
    exact ⟨fun c hc => absurd hc (List.not_mem_nil c), List.chain'_nil,
      fun c hc => by simp at hc, fun c hc => by simp at hc⟩
  · simp only [normalizeText]
    rw [if_neg ht]
    set m := ((t.map Char.toLower).map punctToSpace).map dashToSpace with hm
    have hmmem : ∀ c ∈ m, jsSpace c = true ∨ canonChar c := by
      intro c hc
      rw [hm, List.map_map, List.map_map] at hc
      obtain ⟨d, _, rfl⟩ := List.mem_map.mp hc
      exact stepChar_canon d
    have hclmem : ∀ c ∈ collapseWS false m, canonChar c := by
      intro c hc
      rcases collapseWS_mem m false c hc with h | ⟨hmem2, hns⟩
      · exact Or.inl h
      · rcases hmmem c hmem2 with h | h
        · rw [h] at hns
          exact absurd hns.symm Bool.false_ne_true
        · exact h
    refine ⟨?_, ?_, head?_jsTrim _, getLast?_jsTrim _⟩
    · intro c hc
      exact hclmem c (mem_jsTrim hc)
    · exact chain'_jsTrim (collapseWS_chain m).1

/-- Claim C9: normalizeText is idempotent — normalizing an already normalized
string gives it back unchanged. -/
theorem normalizeText_idem (t : Str) :
    normalizeText (some (normalizeText (some t))) = normalizeText (some t) :=
  normalizeText_of_canon (canon_normalizeText t)

end FashionSearch
